import Mathlib

/-!
Verification of `tflearn/objectives.py`: scalar loss (objective) functions
over batched tensors, together with the name-based lookup `get`.

Tensors are modelled as rank-2 lists of reals (`[batch, classes]`), matching
the documented shape contract of every function in the module.  TensorFlow
reductions become list sums/means; `tf.reduce_mean` over a whole tensor is
the sum of all elements divided by the element count.
-/

namespace Objectives

/-- A rank-2 tensor `[batch_size, num_classes]`, as documented for every
objective in the module. -/
abbrev Tensor := List (List ℝ)

/-- Arithmetic mean of a list of reals (`tf.reduce_mean` on a vector);
the empty list yields `0 / 0 = 0`. -/
noncomputable def mean (l : List ℝ) : ℝ := l.sum / l.length

/-- Mean over every element of a rank-2 tensor (`tf.reduce_mean` with no axis). -/
noncomputable def meanAll (t : Tensor) : ℝ := mean t.flatten

/-- Elementwise combination of two same-shape tensors
(TensorFlow broadcast-free elementwise ops). -/
def map2 (f : ℝ → ℝ → ℝ) (a b : Tensor) : Tensor :=
  List.zipWith (List.zipWith f) a b

/-- Modelled from the spec: `_EPSILON`, the small positive clipping constant
provided by the shared numeric configuration module (`tflearn/config.py`,
not part of the sources); the spec only requires a small positive epsilon. -/
noncomputable def EPSILON : ℝ := 1 / 10 ^ 10

/-- Semantics of `tf.clip_by_value x lo hi`: clamp `x` into `[lo, hi]`
(computed as `max (min x hi) lo`). -/
noncomputable def clip_by_value (x lo hi : ℝ) : ℝ := max (min x hi) lo

/-- Source `mean_square`: `tf.reduce_mean(tf.square(y_pred - y_true))`. -/
noncomputable def mean_square (y_pred y_true : Tensor) : ℝ :=
  meanAll (map2 (fun p t => (p - t) ^ 2) y_pred y_true)

/-- Source `hinge_loss`: `tf.reduce_mean(tf.maximum(1. - y_true * y_pred, 0.))`. -/
noncomputable def hinge_loss (y_pred y_true : Tensor) : ℝ :=
  meanAll (map2 (fun p t => max (1 - t * p) 0) y_pred y_true)

/-- Source `categorical_crossentropy`: renormalize rows of `y_pred`, clip into
`[EPSILON, 1 - EPSILON]`, take `-sum` over the last axis of
`y_true * log y_pred`, then the mean over the batch axis. -/
noncomputable def categorical_crossentropy (y_pred y_true : Tensor) : ℝ :=
  let y_pred1 := y_pred.map (fun row => row.map (fun x => x / row.sum))
  let y_pred2 := y_pred1.map
    (fun row => row.map (fun x => clip_by_value x EPSILON (1 - EPSILON)))
  let cross_entropy := List.zipWith
    (fun trow prow => -(List.zipWith (fun t p => t * Real.log p) trow prow).sum)
    y_true y_pred2
  mean cross_entropy

/-- The running maximum of a list of logits (`0` for the empty list). -/
noncomputable def maxLogit (l : List ℝ) : ℝ := l.foldl max (l.headD 0)

/-- Numerically stable log-sum-exp: subtract the maximum logit before
exponentiating, then add it back after the logarithm. -/
noncomputable def logSumExpStable (l : List ℝ) : ℝ :=
  maxLogit l + Real.log ((l.map (fun x => Real.exp (x - maxLogit l))).sum)

/-- Modelled from the spec: the fused, numerically stable softmax
cross-entropy primitive (`tf.nn.softmax_cross_entropy_with_logits`, external
to the sources).  Per row it returns
`-sum_j labels_j * (logits_j - logsumexp logits)` with the log-sum-exp
computed by the stable max-subtraction scheme. -/
noncomputable def softmax_cross_entropy_with_logits (logits labels : List ℝ) : ℝ :=
  Neg.neg (List.zipWith
    (fun t x => t * (x - logSumExpStable logits)) labels logits).sum

/-- Source `softmax_categorical_crossentropy`:
`tf.reduce_mean(tf.nn.softmax_cross_entropy_with_logits(y_pred, y_true))`. -/
noncomputable def softmax_categorical_crossentropy (y_pred y_true : Tensor) : ℝ :=
  mean (List.zipWith softmax_cross_entropy_with_logits y_pred y_true)

/-- Modelled from the spec: the elementwise sigmoid cross-entropy primitive
(`tf.nn.sigmoid_cross_entropy_with_logits`, external to the sources), given
in its documented logistic-loss form `x - x * z + log(1 + exp(-x))` with
`x` the logit and `z` the target. -/
noncomputable def sigmoid_cross_entropy_with_logits (x z : ℝ) : ℝ :=
  x - x * z + Real.log (1 + Real.exp (-x))

/-- Source `binary_crossentropy`:
`tf.reduce_mean(tf.nn.sigmoid_cross_entropy_with_logits(y_pred, y_true))`. -/
noncomputable def binary_crossentropy (y_pred y_true : Tensor) : ℝ :=
  meanAll (map2 sigmoid_cross_entropy_with_logits y_pred y_true)

/-- Spec step (a): renormalize each row by dividing by its sum along the
last axis. -/
noncomputable def renormalizeRows (t : Tensor) : Tensor :=
  t.map (fun row => row.map (fun x => x / row.sum))

/-- Spec step (b): clip every element into `[lo, hi]`. -/
noncomputable def clipTensor (lo hi : ℝ) (t : Tensor) : Tensor :=
  t.map (fun row => row.map (fun x => clip_by_value x lo hi))

/-- Spec step (c): per batch row, `-sum` over the last axis of
`true * log pred`. -/
noncomputable def negLogLikelihoodRows (y_true p : Tensor) : List ℝ :=
  List.zipWith
    (fun trow prow => Neg.neg (List.zipWith (fun t q => t * Real.log q) trow prow).sum)
    y_true p

/-- The four-step formula of the spec for `categorical_crossentropy`:
renormalize, clip, negative log-likelihood per row, mean over the batch. -/
noncomputable def categorical_crossentropy_spec (y_pred y_true : Tensor) : ℝ :=
  mean (negLogLikelihoodRows y_true
    (clipTensor EPSILON (1 - EPSILON) (renormalizeRows y_pred)))

/-- Row-wise softmax: `exp x_i / sum_j exp x_j` (the spec's naive softmax). -/
noncomputable def softmax (row : List ℝ) : List ℝ :=
  row.map (fun x => Real.exp x / (row.map Real.exp).sum)

/-- The naive composition the spec equates `softmax_categorical_crossentropy`
with: `mean_over_batch(-sum_over_classes(true * log (softmax pred)))`. -/
noncomputable def naive_softmax_categorical_crossentropy (y_pred y_true : Tensor) : ℝ :=
  mean (List.zipWith
    (fun prow trow =>
      Neg.neg (List.zipWith (fun t q => t * Real.log q) trow (softmax prow)).sum)
    y_pred y_true)

/-- The lookup keys of the module symbol table: one tag per objective
defined in `objectives.py`. -/
inductive ObjectiveId where
  | softmax_categorical_crossentropy
  | categorical_crossentropy
  | binary_crossentropy
  | mean_square
  | hinge_loss
deriving DecidableEq

/-- An identifier passed to `get`: either a string name or an
already-callable objective. -/
inductive Identifier where
  | name (s : String)
  | callable (f : ObjectiveId)

/-- The module's own symbol table restricted to its objective functions
(the relevant part of `globals()` in `objectives.py`). -/
def objectiveTable : List (String × ObjectiveId) :=
  [("softmax_categorical_crossentropy", ObjectiveId.softmax_categorical_crossentropy),
   ("categorical_crossentropy", ObjectiveId.categorical_crossentropy),
   ("binary_crossentropy", ObjectiveId.binary_crossentropy),
   ("mean_square", ObjectiveId.mean_square),
   ("hinge_loss", ObjectiveId.hinge_loss)]

/-- Modelled from the spec: `get_from_module` (defined in `tflearn/utils.py`,
not part of the sources) resolves a string name in the given symbol table,
passes an already-callable identifier through unchanged, and otherwise fails
with a descriptive error naming the unresolved identifier and the category. -/
def get_from_module (identifier : Identifier)
    (module_params : List (String × ObjectiveId)) (module_name : String) :
    Except String ObjectiveId :=
  match identifier with
  | Identifier.callable f => Except.ok f
  | Identifier.name s =>
      match module_params.lookup s with
      | some f => Except.ok f
      | none => Except.error ("Invalid " ++ module_name ++ ": " ++ s)

/-- Source `get`: `get_from_module(identifier, globals(), 'objective')`. -/
def get (identifier : Identifier) : Except String ObjectiveId :=
  get_from_module identifier objectiveTable "objective"

/-- The objective function each symbol-table tag denotes. -/
noncomputable def objectiveImpl : ObjectiveId → Tensor → Tensor → ℝ
  | ObjectiveId.softmax_categorical_crossentropy => softmax_categorical_crossentropy
  | ObjectiveId.categorical_crossentropy => categorical_crossentropy
  | ObjectiveId.binary_crossentropy => binary_crossentropy
  | ObjectiveId.mean_square => mean_square
  | ObjectiveId.hinge_loss => hinge_loss

/- Helper lemmas about list sums and means. -/

theorem sum_nonneg_of_mem {l : List ℝ} (h : ∀ x ∈ l, 0 ≤ x) : 0 ≤ l.sum := by
  induction l with
  | nil => simp
  | cons a l ih =>
      simp only [List.sum_cons]
      have ha := h a (List.mem_cons_self a l)
      have hl := ih (fun x hx => h x (List.mem_cons_of_mem a hx))
      linarith

theorem mean_nonneg_of_mem {l : List ℝ} (h : ∀ x ∈ l, 0 ≤ x) : 0 ≤ mean l := by
  unfold mean
  exact div_nonneg (sum_nonneg_of_mem h) (Nat.cast_nonneg _)

theorem mem_zipWith {α β γ : Type} {f : α → β → γ} :
    ∀ {l₁ : List α} {l₂ : List β} {c : γ}, c ∈ List.zipWith f l₁ l₂ →
      ∃ a ∈ l₁, ∃ b ∈ l₂, c = f a b := by
  intro l₁
  induction l₁ with
  | nil => intro l₂ c hc; simp at hc
  | cons a l ih =>
      intro l₂ c hc
      cases l₂ with
      | nil => simp at hc
      | cons b l' =>
          simp only [List.zipWith_cons_cons, List.mem_cons] at hc
          rcases hc with hc | hc
          · exact ⟨a, List.mem_cons_self a l, b, List.mem_cons_self b l', hc⟩
          · rcases ih hc with ⟨a', ha', b', hb', heq⟩
            exact ⟨a', List.mem_cons_of_mem a ha', b',
                   List.mem_cons_of_mem b hb', heq⟩

theorem mem_map2 {f : ℝ → ℝ → ℝ} {a b : Tensor} {x : ℝ}
    (hx : x ∈ (map2 f a b).flatten) : ∃ p q, x = f p q := by
  rcases List.mem_flatten.mp hx with ⟨row, hrow, hxrow⟩
  rcases mem_zipWith hrow with ⟨ra, _, rb, _, hre⟩
  subst hre
  rcases mem_zipWith hxrow with ⟨p, _, q, _, hpq⟩
  exact ⟨p, q, hpq⟩

/-- C7: `mean_square(a, a)` is `0` for every tensor `a`. -/
theorem mean_square_self_eq_zero (a : Tensor) : mean_square a a = 0 := by
  unfold mean_square map2 meanAll
  have hz : List.zipWith (List.zipWith fun p t => (p - t) ^ 2) a a
      = a.map (fun row => row.map (fun _ => 0)) := by
    rw [List.zipWith_same]
    apply List.map_congr_left
    intro row _
    rw [List.zipWith_same]
    apply List.map_congr_left
    intro x _
    simp
  rw [hz]
  have hs : (List.map (fun row => List.map (fun _ => (0 : ℝ)) row) a).flatten.sum = 0 := by
    induction a with
    | nil => simp
    | cons r a ih => simp [ih, List.sum_eq_zero]
  unfold mean
  rw [hs]
  simp

/-- C10: `mean_square(y_pred, y_true)` is nonnegative for every pair of
tensors, being a mean of elementwise squares. -/
theorem mean_square_nonneg (y_pred y_true : Tensor) :
    0 ≤ mean_square y_pred y_true := by
  unfold mean_square meanAll
  apply mean_nonneg_of_mem
  intro x hx
  rcases mem_map2 hx with ⟨p, q, rfl⟩
  positivity

/-- C5: `hinge_loss` is the mean over all elements of
`max(1 - y_true * y_pred, 0)`, and on the concrete input
`y_pred = [[0.5]]`, `y_true = [[1.0]]` it returns `0.5`. -/
theorem hinge_loss_spec :
    (∀ y_pred y_true : Tensor,
      hinge_loss y_pred y_true =
        (List.zipWith (List.zipWith fun p t => max (1 - t * p) 0)
            y_pred y_true).flatten.sum /
        (List.zipWith (List.zipWith fun p t => max (1 - t * p) 0)
            y_pred y_true).flatten.length) ∧
    hinge_loss [[0.5]] [[1.0]] = 0.5 := by
  constructor
  · intro y_pred y_true
    rfl
  · unfold hinge_loss meanAll map2 mean
    norm_num

/-- C6: every element of `max(1 - y_true * y_pred, 0)` is nonnegative, hence
so is the scalar returned by `hinge_loss`. -/
theorem hinge_loss_nonneg (y_pred y_true : Tensor) :
    (∀ x ∈ (map2 (fun p t => max (1 - t * p) 0) y_pred y_true).flatten, 0 ≤ x) ∧
    0 ≤ hinge_loss y_pred y_true := by
  have helem : ∀ x ∈ (map2 (fun p t => max (1 - t * p) 0) y_pred y_true).flatten,
      0 ≤ x := by
    intro x hx
    rcases mem_map2 hx with ⟨p, q, rfl⟩
    exact le_max_right _ _
  exact ⟨helem, mean_nonneg_of_mem helem⟩

/-- Closed instance of `hinge_loss_nonneg` at a concrete input. -/
theorem hinge_loss_nonneg_witness : 0 ≤ hinge_loss [[0.5]] [[1.0]] :=
  (hinge_loss_nonneg [[0.5]] [[1.0]]).2

/-- C1: `categorical_crossentropy` computes exactly the four-step spec
formula: renormalize rows, clip into `[epsilon, 1-epsilon]`, take the
negative log-likelihood over the last axis, and average over the batch. -/
theorem categorical_crossentropy_eq_spec (y_pred y_true : Tensor) :
    categorical_crossentropy y_pred y_true
      = categorical_crossentropy_spec y_pred y_true := rfl

theorem sum_nonpos_of_mem {l : List ℝ} (h : ∀ x ∈ l, x ≤ 0) : l.sum ≤ 0 := by
  induction l with
  | nil => simp
  | cons a l ih =>
      simp only [List.sum_cons]
      have ha := h a (List.mem_cons_self a l)
      have hl := ih (fun x hx => h x (List.mem_cons_of_mem a hx))
      linarith

theorem clip_lower (x : ℝ) : EPSILON ≤ clip_by_value x EPSILON (1 - EPSILON) :=
  le_max_right _ _

theorem clip_upper (x : ℝ) : clip_by_value x EPSILON (1 - EPSILON) ≤ 1 - EPSILON := by
  unfold clip_by_value
  apply max_le (min_le_right _ _)
  unfold EPSILON
  norm_num

theorem EPSILON_pos : 0 < EPSILON := by unfold EPSILON; norm_num

/-- C4: whenever `y_pred` is a valid probability distribution per row and
`y_true` has nonnegative entries, `categorical_crossentropy` is
nonnegative. -/
theorem categorical_crossentropy_nonneg (y_pred y_true : Tensor)
    (_hp : ∀ row ∈ y_pred, (∀ x ∈ row, 0 ≤ x) ∧ row.sum = 1)
    (ht : ∀ row ∈ y_true, ∀ x ∈ row, 0 ≤ x) :
    0 ≤ categorical_crossentropy y_pred y_true := by
  rw [categorical_crossentropy_eq_spec]
  unfold categorical_crossentropy_spec
  apply mean_nonneg_of_mem
  intro c hc
  unfold negLogLikelihoodRows at hc
  rcases mem_zipWith hc with ⟨trow, htrow, prow, hprow, rfl⟩
  refine neg_nonneg.mpr (sum_nonpos_of_mem ?_)
  intro x hx
  rcases mem_zipWith hx with ⟨t, htmem, q, hqmem, rfl⟩
  have ht0 : 0 ≤ t := ht trow htrow t htmem
  unfold clipTensor renormalizeRows at hprow
  rcases List.mem_map.mp hprow with ⟨row₀, _, rfl⟩
  rcases List.mem_map.mp hqmem with ⟨z, _, rfl⟩
  have hq0 : 0 ≤ clip_by_value z EPSILON (1 - EPSILON) :=
    le_trans EPSILON_pos.le (clip_lower z)
  have hq1 : clip_by_value z EPSILON (1 - EPSILON) ≤ 1 :=
    le_trans (clip_upper z) (by linarith [EPSILON_pos])
  have hlog : Real.log (clip_by_value z EPSILON (1 - EPSILON)) ≤ 0 :=
    Real.log_nonpos hq0 hq1
  exact mul_nonpos_iff.mpr (Or.inl ⟨ht0, hlog⟩)

/-- Closed instance of `categorical_crossentropy_nonneg` at a concrete
valid distribution. -/
theorem categorical_crossentropy_nonneg_witness :
    0 ≤ categorical_crossentropy [[1]] [[1]] := by
  apply categorical_crossentropy_nonneg [[1]] [[1]]
  · intro row hrow
    simp only [List.mem_singleton] at hrow
    subst hrow
    refine ⟨?_, by norm_num⟩
    intro x hx
    simp only [List.mem_singleton] at hx
    subst hx
    norm_num
  · intro row hrow
    simp only [List.mem_singleton] at hrow
    subst hrow
    intro x hx
    simp only [List.mem_singleton] at hx
    subst hx
    norm_num

theorem sum_map_div (l : List ℝ) (f : ℝ → ℝ) (c : ℝ) :
    (l.map (fun x => f x / c)).sum = (l.map f).sum / c := by
  induction l with
  | nil => simp
  | cons a l ih => simp [ih, add_div]

theorem sum_map_exp_pos {l : List ℝ} (h : l ≠ []) : 0 < (l.map Real.exp).sum := by
  cases l with
  | nil => exact absurd rfl h
  | cons a l =>
      simp only [List.map_cons, List.sum_cons]
      have hnn : 0 ≤ (l.map Real.exp).sum := by
        apply sum_nonneg_of_mem
        intro x hx
        rcases List.mem_map.mp hx with ⟨y, _, rfl⟩
        exact (Real.exp_pos y).le
      linarith [Real.exp_pos a]

theorem logSumExpStable_eq {l : List ℝ} (h : l ≠ []) :
    logSumExpStable l = Real.log ((l.map Real.exp).sum) := by
  unfold logSumExpStable
  have hS : 0 < (l.map Real.exp).sum := sum_map_exp_pos h
  have hsum : (l.map (fun x => Real.exp (x - maxLogit l))).sum
      = (l.map Real.exp).sum / Real.exp (maxLogit l) := by
    simp only [Real.exp_sub]
    exact sum_map_div l Real.exp (Real.exp (maxLogit l))
  rw [hsum, Real.log_div hS.ne' (Real.exp_ne_zero _), Real.log_exp]
  ring

theorem softmax_cross_entropy_row (prow trow : List ℝ) :
    softmax_cross_entropy_with_logits prow trow
      = Neg.neg (List.zipWith (fun t q => t * Real.log q) trow (softmax prow)).sum := by
  unfold softmax_cross_entropy_with_logits softmax
  rcases eq_or_ne prow [] with rfl | hne
  · simp
  · have hS : 0 < (prow.map Real.exp).sum := sum_map_exp_pos hne
    rw [List.zipWith_map_right]
    have hfun : (fun (t x : ℝ) => t * (x - logSumExpStable prow))
        = fun (t x : ℝ) =>
            t * Real.log (Real.exp x / (prow.map Real.exp).sum) := by
      funext t x
      rw [Real.log_div (Real.exp_ne_zero x) hS.ne', Real.log_exp,
          logSumExpStable_eq hne]
    rw [hfun]

/-- C2: the fused stable softmax cross-entropy equals the naive composition
`mean_over_batch(-sum_over_classes(true * log (softmax pred)))`. -/
theorem softmax_categorical_crossentropy_eq_naive (y_pred y_true : Tensor) :
    softmax_categorical_crossentropy y_pred y_true
      = naive_softmax_categorical_crossentropy y_pred y_true := by
  unfold softmax_categorical_crossentropy naive_softmax_categorical_crossentropy
  have hfun : softmax_cross_entropy_with_logits
      = fun prow trow =>
          Neg.neg (List.zipWith (fun t q => t * Real.log q) trow (softmax prow)).sum :=
    funext (fun prow => funext (fun trow => softmax_cross_entropy_row prow trow))
  rw [hfun]

theorem map2_congr {f g : ℝ → ℝ → ℝ} (h : ∀ x z, f x z = g x z)
    (a b : Tensor) : map2 f a b = map2 g a b := by
  have hfg : f = g := funext (fun x => funext (fun z => h x z))
  rw [hfg]

theorem sigmoid_stable (x z : ℝ) :
    sigmoid_cross_entropy_with_logits x z
      = max x 0 - x * z + Real.log (1 + Real.exp (-|x|)) := by
  unfold sigmoid_cross_entropy_with_logits
  have key : x + Real.log (1 + Real.exp (-x)) = Real.log (1 + Real.exp x) := by
    have hpos : (0 : ℝ) < 1 + Real.exp (-x) := by positivity
    have h2 : Real.exp x * (1 + Real.exp (-x)) = 1 + Real.exp x := by
      rw [mul_add, mul_one, ← Real.exp_add]
      simp [add_comm]
    calc x + Real.log (1 + Real.exp (-x))
        = Real.log (Real.exp x) + Real.log (1 + Real.exp (-x)) := by
          rw [Real.log_exp]
      _ = Real.log (Real.exp x * (1 + Real.exp (-x))) :=
          (Real.log_mul (Real.exp_ne_zero x) hpos.ne').symm
      _ = Real.log (1 + Real.exp x) := by rw [h2]
  rcases le_or_lt 0 x with hx | hx
  · rw [abs_of_nonneg hx, max_eq_left hx]
  · rw [abs_of_neg hx, max_eq_right hx.le, neg_neg]
    linarith [key]

/-- C3: `binary_crossentropy` equals the mean over all elements of the
numerically stable form `max(x,0) - x*z + log(1 + exp(-|x|))` with
`x = y_pred` and `z = y_true`. -/
theorem binary_crossentropy_stable_form (y_pred y_true : Tensor) :
    binary_crossentropy y_pred y_true
      = meanAll (map2
          (fun x z => max x 0 - x * z + Real.log (1 + Real.exp (-|x|)))
          y_pred y_true) := by
  unfold binary_crossentropy
  exact congrArg meanAll (map2_congr sigmoid_stable y_pred y_true)

/-- C8: `get` on the string name of a defined objective resolves to the same
function as `get` on the callable itself; an already-callable identifier is
passed through unchanged. -/
theorem get_mean_square_passthrough :
    get (Identifier.name "mean_square") = Except.ok ObjectiveId.mean_square ∧
    get (Identifier.callable ObjectiveId.mean_square)
      = Except.ok ObjectiveId.mean_square ∧
    objectiveImpl ObjectiveId.mean_square = mean_square :=
  ⟨rfl, rfl, rfl⟩

/-- C9: `get` on a string naming no objective of the module fails with a
lookup error naming the unresolved identifier and the category. -/
theorem get_unknown_name_error (s : String)
    (h : objectiveTable.lookup s = none) :
    get (Identifier.name s) = Except.error ("Invalid objective: " ++ s) := by
  simp only [get, get_from_module]
  rw [h]
  rfl

/-- Closed instance of `get_unknown_name_error` at the concrete unknown
identifier of the spec. -/
theorem get_unknown_name_error_witness :
    objectiveTable.lookup "not_a_real_objective" = none ∧
    get (Identifier.name "not_a_real_objective")
      = Except.error ("Invalid objective: " ++ "not_a_real_objective") :=
  ⟨rfl, get_unknown_name_error "not_a_real_objective" rfl⟩

end Objectives
